import Mathlib

/-!
Verification of concurrency primitives from sysprog21/concurrent-programs.

Each C module relevant to the claims is shallow-embedded as pure Lean
definitions: machine integers become `Nat` (the code relies on 64-bit
counters never wrapping, so unbounded naturals are the faithful reading of
the monotone counters), memory regions become functions `Nat → Nat` or
`Nat → LfRef`, and the lock-free CAS loops are translated under the
single-thread (sequential) interpretation in which every CAS succeeds,
with explicit fuel where the C code loops.
-/

set_option linter.unusedVariables false
set_option linter.unreachableTactic false
set_option linter.unusedTactic false
set_option maxRecDepth 100000

namespace Spec2Proof

/-! ### src/lf-queue/queues.h -/

/-- Result codes of `queues.h` (enum `QueueResult_t`). -/
inductive QueueResult where
  | Ok
  | Full
  | Empty
  | Contention
  | Error
  | Error_Too_Small
  | Error_Too_Big
  | Error_Not_Pow2
  | Error_Not_Aligned_16_Bytes
  | Error_Null_Bytes
  | Error_Bytes_Smaller_Than_Needed
  deriving DecidableEq, Repr

/-- The queue header and cell array as initialized by `make_queue`:
`cell_mask`, both indices, and the per-cell `sequence` fields. -/
structure QueueMem where
  cell_mask : Nat
  enqueue_index : Nat
  dequeue_index : Nat
  sequences : List Nat
  deriving DecidableEq, Repr

/-- `QUEUE_TOO_BIG` = 1024 * 1024 * 256 = 2^28. -/
def QUEUE_TOO_BIG : Nat := 1024 * 1024 * 256

/-- Shallow embedding of `make_queue` from `src/lf-queue/queues.h`.
`structSize` and `cellSize` stand for `sizeof(QUEUE_STRUCT)` and
`sizeof(QUEUE_CELL)`, which depend on the instantiated payload type;
`queue` is the queue pointer (`none` = NULL, `some addr` = its address),
`bytes` is the in-parameter `*bytes` (`none` = NULL pointer).
Returns the result code, the value written through `bytes` (if any), and
the constructed queue memory (if any). -/
def make_queue (structSize cellSize : Nat) (cell_count : Nat)
    (queue : Option Nat) (bytes : Option Nat) :
    QueueResult × Option Nat × Option QueueMem :=
  match bytes with
  | none => (QueueResult.Error_Null_Bytes, none, none)
  | some bytesVal =>
    if cell_count < 2 then (QueueResult.Error_Too_Small, none, none)
    else if cell_count > QUEUE_TOO_BIG then (QueueResult.Error_Too_Big, none, none)
    else if cell_count &&& (cell_count - 1) ≠ 0 then
      (QueueResult.Error_Not_Pow2, none, none)
    else
      let bytes_local := structSize + cellSize * cell_count
      match queue with
      | none => (QueueResult.Ok, some bytes_local, none)
      | some addr =>
        if bytesVal < bytes_local then
          (QueueResult.Error_Bytes_Smaller_Than_Needed, none, none)
        else if addr &&& 0xF ≠ 0 then
          (QueueResult.Error_Not_Aligned_16_Bytes, none, none)
        else
          (QueueResult.Ok, none,
            some { cell_mask := cell_count - 1
                   enqueue_index := 0
                   dequeue_index := 0
                   sequences := List.range cell_count })

/-! ### src/mutex/mutex.h (default, non-PI paths) -/

/-- `MUTEX_LOCKED = 1 << 0`. -/
def MUTEX_LOCKED : Nat := 1

/-- `MUTEX_SLEEPING = 1 << 1`. -/
def MUTEX_SLEEPING : Nat := 2

/-- Sequential reading of `mutex_trylock_default`: the `fetch_or` returns
the prior word; success iff the LOCKED bit was clear.  Result is the new
state word and the boolean return value. -/
def mutex_trylock_default (s : Nat) : Nat × Bool :=
  if s &&& MUTEX_LOCKED ≠ 0 then (s, false)
  else (s ||| MUTEX_LOCKED, true)

/-- Sequential reading of `mutex_unlock_default`: `exchange(&state, 0)`
returns the prior word; a single waiter is woken (`futex_wake(.., 1)`)
iff the prior word had the SLEEPING bit.  Result is the new state word
and whether a wake was issued. -/
def mutex_unlock_default (s : Nat) : Nat × Bool :=
  (0, decide (s &&& MUTEX_SLEEPING ≠ 0))

/-- State words reachable by the default mutex operations: 0 initially;
`trylock` ORs in LOCKED; the contended path of `mutex_lock_default`
exchanges in LOCKED|SLEEPING; `unlock` exchanges in 0. -/
inductive mutexReachable : Nat → Prop where
  | init : mutexReachable 0
  | trylock (s : Nat) : mutexReachable s → mutexReachable (s ||| MUTEX_LOCKED)
  | sleep (s : Nat) : mutexReachable s →
      mutexReachable (MUTEX_LOCKED ||| MUTEX_SLEEPING)
  | unlock (s : Nat) : mutexReachable s → mutexReachable 0

/-! ### src/cmap/cmap.c -/

/-- The mutable body `struct cmap_impl`.  A node is represented by a pair
(identity, stamped hash); buckets are lists of nodes, head first, as in
the singly linked chains of the C code. -/
structure CmapImpl where
  max : Nat
  count : Nat
  utilization : Nat
  arr : List (List (Nat × Nat))
  deriving DecidableEq, Repr

/-- `cmap_impl_init(entry_num)`: `max = entry_num - 1`, zero count and
utilization, all buckets empty. -/
def cmap_impl_init (entry_num : Nat) : CmapImpl :=
  { max := entry_num - 1
    count := 0
    utilization := 0
    arr := List.replicate entry_num [] }

/-- `cmap_insert__`: link the node at the head of bucket
`node.hash & impl->max`, bumping `utilization` if the bucket was empty. -/
def cmap_insert_impl (impl : CmapImpl) (node : Nat × Nat) : CmapImpl :=
  let i := node.2 &&& impl.max
  let bucket := impl.arr.getD i []
  { impl with
    arr := impl.arr.set i (node :: bucket)
    utilization := if bucket = [] then impl.utilization + 1 else impl.utilization }

/-- `cmap_insert(cmap, node, hash)`: stamp `node->hash`, link at the
bucket head, increment `count`; the returned flag records whether
`count > impl->max * 2` held after the increment (the condition under
which `cmap_expand` is invoked).  Returns the new body, the returned
count, and the expansion flag. -/
def cmap_insert (impl : CmapImpl) (nodeId hash : Nat) :
    CmapImpl × Nat × Bool :=
  let node := (nodeId, hash)
  let impl1 := cmap_insert_impl impl node
  let impl2 := { impl1 with count := impl1.count + 1 }
  (impl2, impl2.count, decide (impl2.count > impl2.max * 2))

/-- A 512-bucket body (the repo's `MAP_INITIAL_SIZE`) holding 1022 nodes,
all hashed to bucket 0; the next insert makes `count = 1023`. -/
def cmapCex : CmapImpl :=
  { max := 511
    count := 1022
    utilization := 1
    arr := (List.range 1022).map (fun i => (i, 0)) :: List.replicate 511 [] }

/-! ### src/lf-timer/lf_timer.c

Sequential embedding of the global timer table `g_timer`.  Ticks
(`lf_tick_t`, a 64-bit unsigned) are modeled as `Nat`;
`LF_TIMER_TICK_INVALID = ~0` is the 64-bit all-ones value, and the state
invariant records that `current` stays below it (`lf_timer_tick_set`
rejects it and `current` starts at 0). -/

/-- `LF_TIMER_TICK_INVALID = ~UINT64_C(0)`. -/
def LF_TIMER_TICK_INVALID : Nat := 2 ^ 64 - 1

/-- The scanned part of `g_timer`: the current tick, the `earliest`
lower bound, the allocation high watermark, and the expiration array
(a function; only indices below the watermark are ever scanned). -/
structure TimerState where
  current : Nat
  earliest : Nat
  hi_watermark : Nat
  expirations : Nat → Nat

/-- `update_earliest(exp)`: atomic-min of `g_timer.earliest` and `exp`
(the CAS loop of the C code, sequentially). -/
def update_earliest (st : TimerState) (exp : Nat) : TimerState :=
  if st.earliest ≤ exp then st else { st with earliest := exp }

/-- One step of `scan_timers`, at index `i`: `expire_one_timer` fires the
callback with the stored expiration and writes `LF_TIMER_TICK_INVALID`
when `exp <= now`; otherwise the entry feeds the running minimum.  The
C code's four-way unrolled loop with sentinel entries visits exactly the
indices below the high watermark in order (entries at and beyond the
watermark hold 0, so they hit the `<= now` compare and the bound check
breaks the loop), which is the iteration performed here. -/
def scan_go (now : Nat) :
    List Nat → TimerState → Nat → List (Nat × Nat) →
    TimerState × Nat × List (Nat × Nat)
  | [], st, e, fired => (st, e, fired)
  | i :: rest, st, e, fired =>
    let exp := st.expirations i
    if exp ≤ now then
      scan_go now rest
        { st with expirations := Function.update st.expirations i LF_TIMER_TICK_INVALID }
        e (fired ++ [(i, exp)])
    else
      scan_go now rest st (min e exp) fired

/-- `scan_timers(now, &expirations[0], &expirations[hi_watermark])`:
returns the post-scan state, the new `earliest` candidate, and the list
of callback invocations `(index, expiration)` in order. -/
def scan_timers (now : Nat) (st : TimerState) :
    TimerState × Nat × List (Nat × Nat) :=
  scan_go now (List.range st.hi_watermark) st LF_TIMER_TICK_INVALID []

/-- `lf_timer_expire()`: if `earliest <= current`, reset `earliest` to
INVALID, sweep the table, and fold the surviving minimum back in via
`update_earliest`; otherwise do nothing.  The second component is the
list of `(index, expiration)` pairs passed to the invoked callbacks. -/
def lf_timer_expire (st : TimerState) : TimerState × List (Nat × Nat) :=
  let now := st.current
  if st.earliest ≤ now then
    let st1 := { st with earliest := LF_TIMER_TICK_INVALID }
    let r := scan_timers now st1
    (update_earliest r.1 r.2.1, r.2.2)
  else (st, [])

/-- `lf_timer_tick_set(tck)`: rejected if `tck` is the INVALID sentinel;
otherwise the CAS loop installs `tck` only if it exceeds `current`
(time cannot run backwards). -/
def lf_timer_tick_set (st : TimerState) (tck : Nat) : TimerState :=
  if tck = LF_TIMER_TICK_INVALID then st
  else if tck ≤ st.current then st
  else { st with current := tck }

/-- `lf_timer_tick_get()`. -/
def lf_timer_tick_get (st : TimerState) : Nat := st.current

/-- `update_expiration(idx, exp, active, mo)`: index must be below the
high watermark; the entry must be inactive (INVALID) when `active` is
false resp. active when `active` is true; then the expiration is swapped
in and, if it is a real tick, folded into `earliest`. -/
def update_expiration (st : TimerState) (idx exp : Nat) (active : Bool) :
    TimerState × Bool :=
  if st.hi_watermark ≤ idx then (st, false)
  else
    let old := st.expirations idx
    if (if active then old = LF_TIMER_TICK_INVALID else old ≠ LF_TIMER_TICK_INVALID)
    then (st, false)
    else
      let st1 := { st with expirations := Function.update st.expirations idx exp }
      if exp ≠ LF_TIMER_TICK_INVALID then (update_earliest st1 exp, true)
      else (st1, true)

/-- `lf_timer_set(idx, exp)`. -/
def lf_timer_set (st : TimerState) (idx exp : Nat) : TimerState × Bool :=
  if exp = LF_TIMER_TICK_INVALID then (st, false)
  else update_expiration st idx exp false

/-- `lf_timer_reset(idx, exp)`. -/
def lf_timer_reset (st : TimerState) (idx exp : Nat) : TimerState × Bool :=
  if exp = LF_TIMER_TICK_INVALID then (st, false)
  else update_expiration st idx exp true

/-- `lf_timer_cancel(idx)`. -/
def lf_timer_cancel (st : TimerState) (idx : Nat) : TimerState × Bool :=
  update_expiration st idx LF_TIMER_TICK_INVALID true

/-- The operations of the timer subsystem that touch the global state
(allocation and free touch only the freelist, callback and watermark
fields, never `current`). -/
inductive TimerOp where
  | tickSet (t : Nat)
  | expire
  | set (idx exp : Nat)
  | reset (idx exp : Nat)
  | cancel (idx : Nat)

/-- Effect of one timer operation on the state. -/
def timer_step (st : TimerState) : TimerOp → TimerState
  | TimerOp.tickSet t => lf_timer_tick_set st t
  | TimerOp.expire => (lf_timer_expire st).1
  | TimerOp.set i e => (lf_timer_set st i e).1
  | TimerOp.reset i e => (lf_timer_reset st i e).1
  | TimerOp.cancel i => (lf_timer_cancel st i).1

/-- The invariant `lf_timer_expire` relies on: `current` is a real tick,
and `earliest` is a lower bound on every active expiration below the
watermark (established by `init_timers` and maintained by
`update_earliest` on every set/reset). -/
def TimerInv (st : TimerState) : Prop :=
  st.current < LF_TIMER_TICK_INVALID ∧
  ∀ i, i < st.hi_watermark → st.expirations i ≠ LF_TIMER_TICK_INVALID →
    st.earliest ≤ st.expirations i

/-! ### src/broadcast/util.h and src/broadcast/pool.c -/

/-- `lf_ref_t`: a 128-bit tagged reference, `val` in the low quadword and
`tag` in the high quadword. -/
structure LfRef where
  val : Nat
  tag : Nat
  deriving DecidableEq, Repr

/-- `LF_REF_NULL`: the all-zero reference. -/
def LF_REF_NULL : LfRef := ⟨0, 0⟩

/-- `LF_REF_IS_NULL(ref)`: the full 128-bit word is zero. -/
def LfRef.isNull (r : LfRef) : Bool := r = LF_REF_NULL

/-- `LF_ALIGN_UP(s, a)` for the power-of-two alignments used here:
round `s` up to a multiple of `a` (the C macro computes
`(s + (a-1)) & ~(a-1)`). -/
def LF_ALIGN_UP (s a : Nat) : Nat := (s + (a - 1)) - (s + (a - 1)) % a

/-- `sizeof(pool_t)` = `CACHELINE_SIZE` = 64: the offset of the element
arena `pool->mem` from the pool base. -/
def POOL_HDR : Nat := 64

/-- `struct pool`.  `mem` maps an element offset (from the pool base) to
the `lf_ref_t` stored in its first 16 bytes while the element sits on the
free list.  (While an element is in use those bytes belong to the caller;
the broadcast module models that payload separately.) -/
structure Pool where
  num_elts : Nat
  elt_size : Nat
  tag_next : Nat
  head : LfRef
  mem : Nat → LfRef

/-- `pool_acquire`: pop the head of the free list (the CAS loop,
sequentially).  Returns the element offset (or `none` if the list is
empty) and the new pool. -/
def pool_acquire (p : Pool) : Option Nat × Pool :=
  if p.head.isNull then (none, p)
  else
    let elt_off := p.head.val
    (some elt_off, { p with head := p.mem elt_off })

/-- `pool_release(elt)`: stamp a fresh tag (`__sync_add_and_fetch`
returns the incremented counter), store the old head into the element,
and swing the head to the element. -/
def pool_release (p : Pool) (elt_off : Nat) : Pool :=
  let tag := p.tag_next + 1
  { p with
    tag_next := tag
    mem := Function.update p.mem elt_off p.head
    head := ⟨elt_off, tag⟩ }

/-- The loop of `pool_mem_init`: release every element, from the last
(`i = num_elts - 1`) down to the first (`i = 0`), onto an initially empty
pool whose arena contents are unspecified. -/
def pool_init_fold (num_elts esz : Nat) : Pool :=
  (List.range num_elts).reverse.foldl
    (fun p i => pool_release p (POOL_HDR + i * esz))
    { num_elts := num_elts
      elt_size := esz
      tag_next := 0
      head := LF_REF_NULL
      mem := fun _ => LF_REF_NULL }

/-- `pool_mem_init(mem, num_elts, elt_size)`: reject a zero element
size, round the element size up to `alignof(uint128_t)` = 16, then push
every element. -/
def pool_mem_init (num_elts elt_size : Nat) : Option Pool :=
  if elt_size = 0 then none
  else some (pool_init_fold num_elts (LF_ALIGN_UP elt_size 16))

/-- Iterated `pool_acquire`: the list of results of `n` consecutive
acquires and the final pool. -/
def pool_acquire_n (p : Pool) : Nat → List (Option Nat) × Pool
  | 0 => ([], p)
  | n + 1 =>
    let r := pool_acquire p
    let rs := pool_acquire_n r.2 n
    (r.1 :: rs.1, rs.2)

/-- The free list of `p` spells out the offset list `l`: starting from
`head`, each element's stored reference leads to the next, ending in the
all-zero reference. -/
inductive PoolChain (mem : Nat → LfRef) : LfRef → List Nat → Prop where
  | nil : PoolChain mem LF_REF_NULL []
  | cons (r : LfRef) (rest : List Nat) (hnn : r ≠ LF_REF_NULL) :
      PoolChain mem (mem r.val) rest → PoolChain mem r (r.val :: rest)

/-! ### src/broadcast/broadcast.c

Sequential embedding.  `slots` is the `lf_ref_t` ring indexed by slot
position; `msgs` models the message arena (`msg->size` plus the copied
payload bytes) keyed by the message offset from the broadcast base, kept
separate from the free-list words that overlay the same memory while an
element is free. -/

/-- `struct broadcast` plus its backing pool and message arena. -/
structure Broadcast where
  depth_mask : Nat
  max_msg_size : Nat
  head_idx : Nat
  tail_idx : Nat
  pool_off : Nat
  slots : Nat → LfRef
  pool : Pool
  msgs : Nat → Nat × List Nat

/-- `try_drop_head(b, head_idx)`: read the head slot, CAS `head_idx`
forward (sequentially: succeeds iff the argument still equals the
current head), and release the dropped message back to the pool. -/
def try_drop_head (b : Broadcast) (head_idx : Nat) : Broadcast :=
  let head_cur := b.slots (head_idx &&& b.depth_mask)
  if b.head_idx = head_idx then
    { b with
      head_idx := head_idx + 1
      pool := pool_release b.pool (head_cur.val - b.pool_off) }
  else b

/-- The retry loop of `broadcast_pub`, with fuel; each iteration
re-reads `head_idx`, `tail_idx` and the tail slot, then takes one of the
four branches of the C code (sequentially every CAS succeeds).  `none`
means the fuel ran out. -/
def pub_loop (msg_off : Nat) : Nat → Broadcast → Option (Broadcast × Bool)
  | 0, _ => none
  | fuel + 1, b =>
    let head_idx := b.head_idx
    let tail_idx := b.tail_idx
    let tail_cur := b.slots (tail_idx &&& b.depth_mask)
    if tail_cur.tag = tail_idx then
      pub_loop msg_off fuel { b with tail_idx := tail_idx + 1 }
    else if tail_idx ≤ tail_cur.tag then
      pub_loop msg_off fuel b
    else if head_idx ≤ tail_cur.tag then
      pub_loop msg_off fuel (try_drop_head b head_idx)
    else
      let b1 :=
        { b with
          slots := Function.update b.slots (tail_idx &&& b.depth_mask)
            ⟨msg_off, tail_idx⟩
          tail_idx := tail_idx + 1 }
      some (b1, true)

/-- `broadcast_pub(b, msg_buf, msg_size)`: acquire a message buffer from
the pool (returning false, with nothing changed, if it is exhausted),
copy size and payload in, then run the append loop. -/
def broadcast_pub (b : Broadcast) (payload : List Nat) (fuel : Nat) :
    Option (Broadcast × Bool) :=
  match pool_acquire b.pool with
  | (none, _) => some (b, false)
  | (some elt_off, pool1) =>
    let msg_off := b.pool_off + elt_off
    let b1 :=
      { b with
        pool := pool1
        msgs := Function.update b.msgs msg_off (payload.length, payload) }
    pub_loop msg_off fuel b1

/-- `broadcast_sub_begin`: the subscriber snapshots the current head. -/
def broadcast_sub_begin (b : Broadcast) : Nat := b.head_idx

/-- The loop of `broadcast_sub_next`, with fuel.  The broadcast state is
threaded through unchanged (the C function writes only the subscriber
cursor and the caller's output buffers).  On success the result carries
the advanced cursor and `some (payload bytes, msg_size, drops)`; at the
tail it carries the unchanged cursor and `none` (the C function returns
false). -/
def sub_next_go (b : Broadcast) :
    Nat → Nat → Nat → Option (Broadcast × Nat × Option (List Nat × Nat × Nat))
  | 0, _, _ => none
  | fuel + 1, idx, drops =>
    if idx = b.tail_idx then some (b, idx, none)
    else
      let ref := b.slots (idx &&& b.depth_mask)
      if ref.tag ≠ idx then sub_next_go b fuel (idx + 1) (drops + 1)
      else
        let msg := b.msgs ref.val
        if b.max_msg_size < msg.1 then sub_next_go b fuel idx drops
        else
          let ref2 := b.slots (idx &&& b.depth_mask)
          if ref2 ≠ ref then sub_next_go b fuel (idx + 1) (drops + 1)
          else some (b, idx + 1, some (msg.2.take msg.1, msg.1, drops))

/-- `LF_IS_POW2`. -/
def LF_IS_POW2 (s : Nat) : Bool := s ≠ 0 && s &&& (s - 1) = 0

/-- `broadcast_mem_init(mem, depth, max_msg_size)`: reject a non-power-
of-two depth or a zero message size; otherwise build the header
(`depth_mask = depth - 1`, both indices at 1 because tag 0 means unused,
all slots zeroed) and initialize the backing pool with
`depth + ESTIMATED_PUBLISHERS` elements of the rounded message size. -/
def broadcast_mem_init (depth max_msg_size : Nat) : Option Broadcast :=
  if ¬ LF_IS_POW2 depth then none
  else if max_msg_size = 0 then none
  else
    let elt_size := LF_ALIGN_UP (8 + max_msg_size) 16
    let pool_elts := depth + 16
    let pool_off := LF_ALIGN_UP (64 + depth * 16) 64
    (pool_mem_init pool_elts elt_size).map fun pool =>
      { depth_mask := depth - 1
        max_msg_size := max_msg_size
        head_idx := 1
        tail_idx := 1
        pool_off := pool_off
        slots := fun _ => LF_REF_NULL
        pool := pool
        msgs := fun _ => (0, []) }

/-- The tag held by ring slot `j` after the messages with indices
`1 .. t-1` have been appended in order (0 when no index `≡ j (mod D)`
has been written yet, matching the zeroed slots of `broadcast_mem_init`). -/
def lastW (D t j : Nat) : Nat := (t - 1) - (t - 1 + D - j) % D

/-- The broadcast ring invariant: indices start at 1, `head ≤ tail`,
`tail - head ≤ D`, the depth is a power of two, and each slot holds the
tag of the last index written to it. -/
def BInv (b : Broadcast) : Prop :=
  1 ≤ b.head_idx ∧
  b.head_idx ≤ b.tail_idx ∧
  b.tail_idx - b.head_idx ≤ b.depth_mask + 1 ∧
  (∃ k, b.depth_mask + 1 = 2 ^ k) ∧
  ∀ j, j ≤ b.depth_mask → (b.slots j).tag = lastW (b.depth_mask + 1) b.tail_idx j

/-! ### src/seqlock/seqlock.c

The sequence word (`seqlock_t`, 32-bit) is `Nat`; `data`, `src` and
`dst` are byte memories `Nat → Nat`.  The embedding is sequential: a
reader or writer that would spin on a concurrently held writer bit
instead returns `none`. -/

/-- One chunked copy step of the `ATOMIC_COPY` macro: move `c` bytes
from `src` at `s` to `dst` at `d` (a `c`-byte atomic load/store moves
exactly those bytes). -/
def copy_chunk (dst src : Nat → Nat) (d s c : Nat) : Nat → Nat :=
  fun x => if d ≤ x ∧ x < d + c then src (s + (x - d)) else dst x

/-- The `while (sz >= c) ATOMIC_COPY(...)` loop of `atomic_memcpy`. -/
def copy_words (dst : Nat → Nat) (src : Nat → Nat) (d s sz c : Nat) :
    (Nat → Nat) × Nat × Nat × Nat :=
  if h : 0 < c ∧ c ≤ sz then
    copy_words (copy_chunk dst src d s c) src (d + c) (s + c) (sz - c) c
  else (dst, d, s, sz)
termination_by sz
decreasing_by exact Nat.sub_lt (Nat.lt_of_lt_of_le h.1 h.2) h.1

/-- `atomic_memcpy(dst, src, sz)` on a 64-bit platform: 8-byte chunks
while possible, then one optional 4-, 2- and 1-byte chunk. -/
def atomic_memcpy (dst src : Nat → Nat) (d s sz : Nat) : Nat → Nat :=
  let r8 := copy_words dst src d s sz 8
  let r4 :=
    if 4 ≤ r8.2.2.2 then
      (copy_chunk r8.1 src r8.2.1 r8.2.2.1 4, r8.2.1 + 4, r8.2.2.1 + 4, r8.2.2.2 - 4)
    else r8
  let r2 :=
    if 2 ≤ r4.2.2.2 then
      (copy_chunk r4.1 src r4.2.1 r4.2.2.1 2, r4.2.1 + 2, r4.2.2.1 + 2, r4.2.2.2 - 2)
    else r4
  if 1 ≤ r2.2.2.2 then copy_chunk r2.1 src r2.2.1 r2.2.2.1 1 else r2.1

/-- `SEQLOCK_WRITER = 1`. -/
def SEQLOCK_WRITER : Nat := 1

/-- `seqlock_write(sync, src, data, len)`: `seqlock_acquire_wr` waits
out any writer (sequentially: spins forever, i.e. `none`, if the writer
bit is set and nobody will clear it), CASes the writer bit in, copies,
and `seqlock_release_wr` bumps the counter to the next even value.
Returns the new counter and data area. -/
def seqlock_write (sync : Nat) (src data : Nat → Nat) (len : Nat) :
    Option (Nat × (Nat → Nat)) :=
  if sync &&& SEQLOCK_WRITER ≠ 0 then none
  else
    let sync1 := sync + SEQLOCK_WRITER
    let data1 := atomic_memcpy data src 0 0 len
    some (sync1 + SEQLOCK_WRITER, data1)

/-- `seqlock_read(sync, dst, data, len)`: snapshot an even counter
(sequentially: `none` if a writer bit is set forever), copy the payload,
and keep the copy if the counter is unchanged — with no concurrent
writer the re-read compares equal and the loop exits first time. -/
def seqlock_read (sync : Nat) (data dst : Nat → Nat) (len : Nat) :
    Option (Nat → Nat) :=
  if sync &&& SEQLOCK_WRITER ≠ 0 then none
  else
    let prv := sync
    let dst1 := atomic_memcpy dst data 0 0 len
    if sync = prv then some dst1 else none

/-! ### Theorems: lf-queue (C2, C9) -/

/-- C2 counterexample: with a valid, 16-byte aligned, non-null queue and
the minimum accepted capacity 2, `make_queue` still returns an error when
the `bytes` pointer is NULL — contradicting the claim that the listed
capacity/alignment conditions are the only error cases for a non-null
queue. -/
theorem make_queue_c2_cex :
    (make_queue 64 16 2 (some 16) none).1 = QueueResult.Error_Null_Bytes ∧
    QueueResult.Error_Null_Bytes ≠ QueueResult.Ok ∧
    ¬ 2 < 2 ∧ ¬ 2 > QUEUE_TOO_BIG ∧ (2 : Nat) &&& (2 - 1) = 0 ∧
    (16 : Nat) &&& 0xF = 0 := by
  refine ⟨rfl, by decide, by decide, by decide, by decide, by decide⟩

/-- C2 (amended): for a non-null queue and non-null `bytes`, `make_queue`
returns Ok exactly when `2 ≤ n ≤ 2^28`, `n` is a power of two, the
supplied buffer size is at least the required footprint, and the queue is
16-byte aligned; on Ok every cell `i` holds `sequence = i` and both
indices are 0; a NULL `bytes` pointer is always an error. -/
theorem make_queue_nonnull_spec (structSize cellSize cell_count addr bytesVal : Nat) :
    ((make_queue structSize cellSize cell_count (some addr) (some bytesVal)).1 =
        QueueResult.Ok ↔
      (2 ≤ cell_count ∧ cell_count ≤ QUEUE_TOO_BIG ∧
        cell_count &&& (cell_count - 1) = 0 ∧
        structSize + cellSize * cell_count ≤ bytesVal ∧ addr &&& 0xF = 0)) ∧
    ((make_queue structSize cellSize cell_count (some addr) (some bytesVal)).1 =
        QueueResult.Ok →
      (make_queue structSize cellSize cell_count (some addr) (some bytesVal)).2.2 =
        some { cell_mask := cell_count - 1
               enqueue_index := 0
               dequeue_index := 0
               sequences := List.range cell_count }) ∧
    (make_queue structSize cellSize cell_count (some addr) none).1 =
      QueueResult.Error_Null_Bytes := by
  refine ⟨?_, ?_, rfl⟩ <;>
    · unfold make_queue
      dsimp only
      split_ifs with h1 h2 h3 h4 h5 <;> simp_all <;> omega

/-- Witness for the amended C2 theorem at capacity 2. -/
theorem make_queue_nonnull_spec_witness :
    (make_queue 64 16 2 (some 16) (some 128)).1 = QueueResult.Ok :=
  (make_queue_nonnull_spec 64 16 2 16 128).1.mpr (by decide)

/-- C9: with a NULL queue pointer and a valid cell count, `make_queue`
writes the footprint through `bytes` and returns Ok, regardless of the
incoming `*bytes` value (the buffer-size check is skipped) and with no
alignment input consulted and no queue memory produced. -/
theorem make_queue_query_mode (structSize cellSize cell_count bytesVal : Nat)
    (h2 : 2 ≤ cell_count) (hbig : cell_count ≤ QUEUE_TOO_BIG)
    (hp2 : cell_count &&& (cell_count - 1) = 0) :
    make_queue structSize cellSize cell_count none (some bytesVal) =
      (QueueResult.Ok, some (structSize + cellSize * cell_count), none) := by
  unfold make_queue
  dsimp only
  split_ifs with hlt hgt hp
  · omega
  · omega
  · exact absurd hp2 hp
  · rfl

/-- Witness for C9: querying with `*bytes = 0` (far below the footprint)
still succeeds and reports the footprint. -/
theorem make_queue_query_mode_witness :
    make_queue 64 16 4 none (some 0) =
      (QueueResult.Ok, some (64 + 16 * 4), none) :=
  make_queue_query_mode 64 16 4 0 (by decide) (by decide) (by decide)

/-! ### Theorems: mutex (C6) -/

/-- The reachable default-mutex state words are 0, LOCKED = 1 and
LOCKED|SLEEPING = 3. -/
theorem mutexReachable_cases (s : Nat) (h : mutexReachable s) :
    s = 0 ∨ s = 1 ∨ s = 3 := by
  induction h with
  | init => exact Or.inl rfl
  | trylock s' h ih =>
    rcases ih with h0 | h1 | h3 <;> subst_vars <;> simp [MUTEX_LOCKED]
  | sleep s' h ih => right; right; rfl
  | unlock s' h ih => exact Or.inl rfl

/-- C6: releasing a held default mutex always stores 0 into the state
word, and wakes exactly one waiter iff the prior word was not 1 (i.e.
the SLEEPING bit recorded a waiter). -/
theorem mutex_unlock_default_spec (s : Nat) (hr : mutexReachable s)
    (hheld : s ≠ 0) :
    (mutex_unlock_default s).1 = 0 ∧
    ((mutex_unlock_default s).2 = true ↔ s ≠ 1) := by
  rcases mutexReachable_cases s hr with h | h | h
  · exact absurd h hheld
  · subst h; exact ⟨rfl, by decide⟩
  · subst h; exact ⟨rfl, by decide⟩

/-- Witness for C6 at the contended state word 3. -/
theorem mutex_unlock_default_spec_witness :
    (mutex_unlock_default 3).1 = 0 ∧
    ((mutex_unlock_default 3).2 = true ↔ (3 : Nat) ≠ 1) :=
  mutex_unlock_default_spec 3
    (mutexReachable.sleep 0 mutexReachable.init) (by decide)

/-! ### Theorems: cmap (C5) -/

/-- C5 counterexample: on a consistent 512-bucket body (`N = 512`, the
repo's initial size) holding 1022 nodes, the next insert makes the count
1023 and the code does schedule an expansion (`1023 > 2 * max = 1022`),
although `1023 > 2 * N = 1024` is false — so expansion is not triggered
"exactly when the incremented count exceeds 2N". -/
theorem cmap_insert_c5_cex :
    cmapCex.arr.length = 512 ∧
    (cmapCex.arr.map List.length).sum = cmapCex.count ∧
    (cmap_insert cmapCex 5000 0).2.1 = 1023 ∧
    (cmap_insert cmapCex 5000 0).2.2 = true ∧
    ¬ ((cmap_insert cmapCex 5000 0).2.1 > 2 * 512) := by
  refine ⟨by decide, by decide, rfl, rfl, by decide⟩

/-- C5 (amended): `cmap_insert` stamps the node's hash, links it at the
head of bucket `hash & max` (where `max = N - 1` is the bucket mask),
increments the count, and triggers an expansion exactly when the
incremented count exceeds `2 * max = 2(N - 1)`. -/
theorem cmap_insert_spec (impl : CmapImpl) (nodeId hash : Nat)
    (harr : impl.arr.length = impl.max + 1) :
    (cmap_insert impl nodeId hash).1.count = impl.count + 1 ∧
    (cmap_insert impl nodeId hash).2.1 = impl.count + 1 ∧
    (cmap_insert impl nodeId hash).1.arr.getD (hash &&& impl.max) [] =
      (nodeId, hash) :: impl.arr.getD (hash &&& impl.max) [] ∧
    ((cmap_insert impl nodeId hash).2.2 = true ↔ impl.count + 1 > 2 * impl.max) := by
  have hidx : hash &&& impl.max < impl.arr.length := by
    have := Nat.and_le_right (n := hash) (m := impl.max)
    omega
  refine ⟨rfl, rfl, ?_, ?_⟩
  · show (impl.arr.set (hash &&& impl.max)
        ((nodeId, hash) :: impl.arr.getD (hash &&& impl.max) [])).getD
        (hash &&& impl.max) [] = _
    rw [List.getD_eq_getElem?_getD, List.getElem?_set_self
      (by simpa using hidx), Option.getD_some]
  · simp [cmap_insert, cmap_insert_impl, Nat.mul_comm]

/-- Witness for the amended C5 theorem on a fresh 4-bucket body. -/
theorem cmap_insert_spec_witness :
    (cmap_insert (cmap_impl_init 4) 7 13).1.arr.getD
        (13 &&& (cmap_impl_init 4).max) [] =
      (7, 13) :: (cmap_impl_init 4).arr.getD (13 &&& (cmap_impl_init 4).max) [] :=
  (cmap_insert_spec (cmap_impl_init 4) 7 13 (by decide)).2.2.1

/-! ### Theorems: timer tick (C10) -/

/-- `update_earliest` never touches `current`. -/
theorem update_earliest_current (st : TimerState) (e : Nat) :
    (update_earliest st e).current = st.current := by
  unfold update_earliest; split <;> rfl

/-- `update_earliest` never touches the expiration array. -/
theorem update_earliest_expirations (st : TimerState) (e : Nat) :
    (update_earliest st e).expirations = st.expirations := by
  unfold update_earliest; split <;> rfl

/-- `update_earliest` never touches the high watermark. -/
theorem update_earliest_hi (st : TimerState) (e : Nat) :
    (update_earliest st e).hi_watermark = st.hi_watermark := by
  unfold update_earliest; split <;> rfl

/-- The timer scan never touches `current`. -/
theorem scan_go_current (now : Nat) (l : List Nat) :
    ∀ (st : TimerState) (e : Nat) (acc : List (Nat × Nat)),
      (scan_go now l st e acc).1.current = st.current := by
  induction l with
  | nil => intro st e acc; rfl
  | cons i rest ih =>
    intro st e acc
    unfold scan_go
    dsimp only
    split
    · rw [ih]
    · rw [ih]

/-- `update_expiration` never touches `current`. -/
theorem update_expiration_current (st : TimerState) (idx exp : Nat) (a : Bool) :
    (update_expiration st idx exp a).1.current = st.current := by
  unfold update_expiration
  dsimp only
  repeat' split
  all_goals first | rfl | exact update_earliest_current _ _

/-- No single timer operation decreases `current`. -/
theorem timer_step_current_le (st : TimerState) (op : TimerOp) :
    st.current ≤ (timer_step st op).current := by
  cases op with
  | tickSet t =>
    show st.current ≤ (lf_timer_tick_set st t).current
    unfold lf_timer_tick_set
    split
    · exact Nat.le_refl _
    · split
      · exact Nat.le_refl _
      · dsimp only; omega
  | expire =>
    show st.current ≤ (lf_timer_expire st).1.current
    unfold lf_timer_expire
    dsimp only
    split
    · unfold scan_timers
      rw [update_earliest_current, scan_go_current]
    · exact Nat.le_refl _
  | set i e =>
    show st.current ≤ (lf_timer_set st i e).1.current
    unfold lf_timer_set
    split
    · exact Nat.le_refl _
    · rw [update_expiration_current]
  | reset i e =>
    show st.current ≤ (lf_timer_reset st i e).1.current
    unfold lf_timer_reset
    split
    · exact Nat.le_refl _
    · rw [update_expiration_current]
  | cancel i =>
    show st.current ≤ (lf_timer_cancel st i).1.current
    unfold lf_timer_cancel
    rw [update_expiration_current]

/-- C10: `lf_timer_tick_set` leaves `current` unchanged when the argument
is the INVALID sentinel or does not exceed `current`, installs it
otherwise, and no sequence of timer operations ever decreases `current`. -/
theorem lf_timer_tick_monotone (st : TimerState) (t : Nat) (ops : List TimerOp) :
    ((t = LF_TIMER_TICK_INVALID ∨ t ≤ st.current) →
      (lf_timer_tick_set st t).current = st.current) ∧
    (t ≠ LF_TIMER_TICK_INVALID → st.current < t →
      (lf_timer_tick_set st t).current = t) ∧
    st.current ≤ (ops.foldl timer_step st).current := by
  refine ⟨?_, ?_, ?_⟩
  · intro h
    unfold lf_timer_tick_set
    rcases h with h | h
    · rw [if_pos h]
    · repeat' split
      all_goals first | rfl | omega
  · intro h1 h2
    unfold lf_timer_tick_set
    rw [if_neg h1, if_neg (by omega)]
  · induction ops generalizing st with
    | nil => exact Nat.le_refl _
    | cons op rest ih =>
      exact Nat.le_trans (timer_step_current_le st op) (ih (timer_step st op))

/-- A concrete timer state used by the witnesses. -/
def timerSt0 : TimerState :=
  { current := 0
    earliest := LF_TIMER_TICK_INVALID
    hi_watermark := 0
    expirations := fun _ => 0 }

/-- Witness for C10: from tick 0, setting tick 5 installs it, and a
sample operation sequence never decreases the tick. -/
theorem lf_timer_tick_monotone_witness :
    (lf_timer_tick_set timerSt0 5).current = 5 ∧
    timerSt0.current ≤
      (([TimerOp.tickSet 5, TimerOp.expire, TimerOp.tickSet 3]).foldl
        timer_step timerSt0).current :=
  ⟨(lf_timer_tick_monotone timerSt0 5 []).2.1 (by decide) (by decide),
   (lf_timer_tick_monotone timerSt0 5
     [TimerOp.tickSet 5, TimerOp.expire, TimerOp.tickSet 3]).2.2⟩

/-! ### Theorems: timer expiration (C4) -/

/-- Entries already in the invocation accumulator survive the scan. -/
theorem scan_go_acc_mem (now : Nat) (l : List Nat) :
    ∀ (st : TimerState) (e : Nat) (acc : List (Nat × Nat)) (x : Nat × Nat),
      x ∈ acc → x ∈ (scan_go now l st e acc).2.2 := by
  induction l with
  | nil => intro st e acc x hx; exact hx
  | cons i rest ih =>
    intro st e acc x hx
    unfold scan_go
    dsimp only
    split
    · exact ih _ _ _ _ (List.mem_append_left _ hx)
    · exact ih _ _ _ _ hx

/-- Indices not visited by the scan keep their expiration value. -/
theorem scan_go_untouched (now : Nat) (l : List Nat) :
    ∀ (st : TimerState) (e : Nat) (acc : List (Nat × Nat)) (idx : Nat),
      idx ∉ l →
      (scan_go now l st e acc).1.expirations idx = st.expirations idx := by
  induction l with
  | nil => intro st e acc idx h; rfl
  | cons i rest ih =>
    intro st e acc idx h
    have hne : i ≠ idx := fun he => h (he ▸ List.mem_cons_self i rest)
    have hrest : idx ∉ rest := fun hr => h (List.mem_cons_of_mem i hr)
    unfold scan_go
    dsimp only
    split
    · rw [ih _ _ _ _ hrest]
      exact Function.update_noteq (Ne.symm hne) _ _
    · exact ih _ _ _ _ hrest

/-- A visited index whose expiration is due is fired (recorded with its
stored expiration) and its entry is set to INVALID. -/
theorem scan_go_fires (now : Nat) (l : List Nat) :
    ∀ (st : TimerState) (e : Nat) (acc : List (Nat × Nat)) (idx : Nat),
      l.Nodup → idx ∈ l → st.expirations idx ≤ now →
      (idx, st.expirations idx) ∈ (scan_go now l st e acc).2.2 ∧
      (scan_go now l st e acc).1.expirations idx = LF_TIMER_TICK_INVALID := by
  induction l with
  | nil => intro st e acc idx hnd hmem hle; cases hmem
  | cons i rest ih =>
    intro st e acc idx hnd hmem hle
    rcases List.mem_cons.mp hmem with heq | hmem'
    · subst heq
      have hrest : idx ∉ rest := (List.nodup_cons.mp hnd).1
      unfold scan_go
      dsimp only
      rw [if_pos hle]
      constructor
      · exact scan_go_acc_mem now rest _ _ _ _
          (List.mem_append_right _ (List.mem_singleton.mpr rfl))
      · rw [scan_go_untouched now rest _ _ _ _ hrest]
        exact Function.update_same _ _ _
    · have hnd' : rest.Nodup := (List.nodup_cons.mp hnd).2
      have hne : i ≠ idx := fun he => (List.nodup_cons.mp hnd).1 (he ▸ hmem')
      unfold scan_go
      dsimp only
      split
      · have hle' :
            (TimerState.mk st.current st.earliest st.hi_watermark
              (Function.update st.expirations i LF_TIMER_TICK_INVALID)).expirations idx ≤ now := by
          show (Function.update st.expirations i LF_TIMER_TICK_INVALID) idx ≤ now
          rw [Function.update_noteq (Ne.symm hne)]; exact hle
        have h0 := ih
          (TimerState.mk st.current st.earliest st.hi_watermark
            (Function.update st.expirations i LF_TIMER_TICK_INVALID))
          e (acc ++ [(i, st.expirations i)]) idx hnd' hmem' hle'
        have h1 : (TimerState.mk st.current st.earliest st.hi_watermark
            (Function.update st.expirations i LF_TIMER_TICK_INVALID)).expirations idx =
              st.expirations idx := by
          show (Function.update st.expirations i LF_TIMER_TICK_INVALID) idx = _
          rw [Function.update_noteq (Ne.symm hne)]
        rw [h1] at h0
        exact h0
      · exact ih _ _ _ idx hnd' hmem' hle

/-- An index whose expiration is not yet due is left untouched and never
fired by the scan. -/
theorem scan_go_skips (now : Nat) (l : List Nat) :
    ∀ (st : TimerState) (e : Nat) (acc : List (Nat × Nat)) (idx : Nat),
      now < st.expirations idx →
      (∀ p ∈ acc, p.1 ≠ idx) →
      (scan_go now l st e acc).1.expirations idx = st.expirations idx ∧
      ∀ p ∈ (scan_go now l st e acc).2.2, p.1 ≠ idx := by
  induction l with
  | nil => intro st e acc idx hgt hacc; exact ⟨rfl, hacc⟩
  | cons i rest ih =>
    intro st e acc idx hgt hacc
    unfold scan_go
    dsimp only
    split
    · rename_i hle
      have hne : i ≠ idx := by
        intro he; subst he; omega
      have hgt' : now <
          (TimerState.mk st.current st.earliest st.hi_watermark
            (Function.update st.expirations i LF_TIMER_TICK_INVALID)).expirations idx := by
        show now < (Function.update st.expirations i LF_TIMER_TICK_INVALID) idx
        rw [Function.update_noteq (Ne.symm hne)]; exact hgt
      have hacc' : ∀ p ∈ acc ++ [(i, st.expirations i)], p.1 ≠ idx := by
        intro p hp
        rcases List.mem_append.mp hp with hp1 | hp2
        · exact hacc p hp1
        · rw [List.mem_singleton.mp hp2]; exact hne
      have h0 := ih
        (TimerState.mk st.current st.earliest st.hi_watermark
          (Function.update st.expirations i LF_TIMER_TICK_INVALID))
        e (acc ++ [(i, st.expirations i)]) idx hgt' hacc'
      have h1 : (TimerState.mk st.current st.earliest st.hi_watermark
          (Function.update st.expirations i LF_TIMER_TICK_INVALID)).expirations idx =
            st.expirations idx := by
        show (Function.update st.expirations i LF_TIMER_TICK_INVALID) idx = _
        rw [Function.update_noteq (Ne.symm hne)]
      rw [h1] at h0
      exact h0
    · exact ih _ _ _ idx hgt hacc

/-- C4: under the timer invariant, `lf_timer_expire` fires the callback
of an allocated, active timer exactly when its expiration is at most the
current tick — passing the stored expiration and writing INVALID into
the entry — and leaves the entry alone (issuing no callback for it
at all) when the expiration is still in the future. -/
theorem lf_timer_expire_fires_iff (st : TimerState) (idx : Nat)
    (hinv : TimerInv st) (hwm : idx < st.hi_watermark)
    (hact : st.expirations idx ≠ LF_TIMER_TICK_INVALID) :
    (st.expirations idx ≤ st.current →
      (idx, st.expirations idx) ∈ (lf_timer_expire st).2 ∧
      (lf_timer_expire st).1.expirations idx = LF_TIMER_TICK_INVALID) ∧
    (st.current < st.expirations idx →
      (lf_timer_expire st).1.expirations idx = st.expirations idx ∧
      ((lf_timer_expire st).2.all fun p => p.1 != idx) = true) := by
  constructor
  · intro hle
    have hgate : st.earliest ≤ st.current :=
      Nat.le_trans (hinv.2 idx hwm hact) hle
    unfold lf_timer_expire
    dsimp only
    rw [if_pos hgate]
    unfold scan_timers
    dsimp only
    have h0 := scan_go_fires st.current (List.range st.hi_watermark)
      { st with earliest := LF_TIMER_TICK_INVALID } LF_TIMER_TICK_INVALID []
      idx (List.nodup_range _) (List.mem_range.mpr hwm) hle
    exact ⟨h0.1, by rw [update_earliest_expirations]; exact h0.2⟩
  · intro hgt
    unfold lf_timer_expire
    dsimp only
    split
    · unfold scan_timers
      dsimp only
      have h0 := scan_go_skips st.current (List.range st.hi_watermark)
        { st with earliest := LF_TIMER_TICK_INVALID } LF_TIMER_TICK_INVALID []
        idx hgt (by intro p hp; cases hp)
      refine ⟨by rw [update_earliest_expirations]; exact h0.1, ?_⟩
      rw [List.all_eq_true]
      intro p hp
      exact bne_iff_ne.mpr (h0.2 p hp)
    · exact ⟨rfl, rfl⟩

/-- A concrete one-timer state: timer 0 active with expiration 7,
current tick 7 (the boundary case `current == exp`). -/
def timerSt1 : TimerState :=
  { current := 7
    earliest := 7
    hi_watermark := 1
    expirations := fun _ => 7 }

/-- Witness for C4: at `current == exp` the callback fires with the
stored expiration and the entry becomes INVALID. -/
theorem lf_timer_expire_fires_iff_witness :
    (0, timerSt1.expirations 0) ∈ (lf_timer_expire timerSt1).2 ∧
    (lf_timer_expire timerSt1).1.expirations 0 = LF_TIMER_TICK_INVALID :=
  (lf_timer_expire_fires_iff timerSt1 0
    ⟨by decide, by decide⟩ (by decide) (by decide)).1 (by decide)

/-! ### Theorems: pool (C3) -/

/-- Inversion: an empty chain has the null head. -/
theorem PoolChain_nil_inv (mem : Nat → LfRef) (r : LfRef)
    (hc : PoolChain mem r []) : r = LF_REF_NULL := by
  cases hc
  rfl

/-- Inversion: a non-empty chain has a non-null head whose value is the
first offset, and the stored reference continues the chain. -/
theorem PoolChain_cons_inv (mem : Nat → LfRef) (r : LfRef) (off : Nat)
    (l : List Nat) (hc : PoolChain mem r (off :: l)) :
    r ≠ LF_REF_NULL ∧ r.val = off ∧ PoolChain mem (mem off) l := by
  cases hc with
  | cons r rest hnn hrec => exact ⟨hnn, rfl, hrec⟩

/-- A chain is insensitive to memory changes outside its own cells. -/
theorem PoolChain_congr (mem mem' : Nat → LfRef) (r : LfRef) (l : List Nat)
    (hc : PoolChain mem r l) (hagree : ∀ o ∈ l, mem' o = mem o) :
    PoolChain mem' r l := by
  induction hc with
  | nil => exact PoolChain.nil
  | cons r rest hnn hrec ih =>
    refine PoolChain.cons r rest hnn ?_
    rw [hagree r.val (List.mem_cons_self _ _)]
    exact ih fun o ho => hagree o (List.mem_cons_of_mem _ ho)

/-- `pool_release` pushes a fresh offset onto the free-list chain. -/
theorem pool_release_chain (p : Pool) (off : Nat) (l : List Nat)
    (hc : PoolChain p.mem p.head l) (hoff : off ∉ l) :
    PoolChain (pool_release p off).mem (pool_release p off).head (off :: l) := by
  unfold pool_release
  dsimp only
  refine PoolChain.cons ⟨off, p.tag_next + 1⟩ l ?_ ?_
  · intro h
    have := congrArg LfRef.tag h
    simp [LF_REF_NULL] at this
  · show PoolChain (Function.update p.mem off p.head)
      ((Function.update p.mem off p.head) off) l
    rw [Function.update_same]
    refine PoolChain_congr p.mem _ p.head l hc ?_
    intro o ho
    refine Function.update_noteq ?_ _ _
    intro he
    exact hoff (he ▸ ho)

/-- Folding `pool_release` over a list of fresh, distinct offsets
prepends them (reversed) to the free-list chain. -/
theorem pool_release_fold_chain (offs : List Nat) :
    ∀ (p : Pool) (c : List Nat),
      PoolChain p.mem p.head c → offs.Nodup → (∀ o ∈ offs, o ∉ c) →
      PoolChain (offs.foldl pool_release p).mem
        (offs.foldl pool_release p).head (offs.reverse ++ c) := by
  induction offs with
  | nil => intro p c hc _ _; exact hc
  | cons off rest ih =>
    intro p c hc hnd hdisj
    have hstep := pool_release_chain p off c hc
      (hdisj off (List.mem_cons_self _ _))
    have hrec := ih (pool_release p off) (off :: c) hstep
      (List.nodup_cons.mp hnd).2
      (by
        intro o ho
        rw [List.mem_cons]
        push_neg
        exact ⟨fun he => (List.nodup_cons.mp hnd).1 (he ▸ ho),
          hdisj o (List.mem_cons_of_mem _ ho)⟩)
    rw [List.foldl_cons]
    rw [List.reverse_cons, List.append_assoc]
    simpa using hrec

/-- `pool_acquire` pops the head of a non-empty chain. -/
theorem pool_acquire_chain (p : Pool) (off : Nat) (l : List Nat)
    (hc : PoolChain p.mem p.head (off :: l)) :
    pool_acquire p = (some off, { p with head := p.mem off }) ∧
    PoolChain p.mem (p.mem off) l := by
  obtain ⟨hnn, hval, hrec⟩ := PoolChain_cons_inv p.mem p.head off l hc
  constructor
  · unfold pool_acquire
    rw [if_neg (by simp [LfRef.isNull, hnn])]
    rw [hval]
  · exact hrec

/-- Popping a chain of length `n` returns exactly its offsets in order,
leaves memory untouched, and ends with a null head. -/
theorem pool_acquire_n_chain (l : List Nat) :
    ∀ (p : Pool), PoolChain p.mem p.head l →
      (pool_acquire_n p l.length).1 = l.map some ∧
      (pool_acquire_n p l.length).2.mem = p.mem ∧
      (pool_acquire_n p l.length).2.head = LF_REF_NULL := by
  induction l with
  | nil =>
    intro p hc
    have hnull := PoolChain_nil_inv p.mem p.head hc
    exact ⟨rfl, rfl, hnull⟩
  | cons off rest ih =>
    intro p hc
    have hpop := pool_acquire_chain p off rest hc
    have h2 := ih { p with head := p.mem off } (by exact hpop.2)
    show ((pool_acquire p).1 ::
        (pool_acquire_n (pool_acquire p).2 rest.length).1,
        (pool_acquire_n (pool_acquire p).2 rest.length).2).1 = _ ∧
      ((pool_acquire p).1 ::
        (pool_acquire_n (pool_acquire p).2 rest.length).1,
        (pool_acquire_n (pool_acquire p).2 rest.length).2).2.mem = _ ∧
      ((pool_acquire p).1 ::
        (pool_acquire_n (pool_acquire p).2 rest.length).1,
        (pool_acquire_n (pool_acquire p).2 rest.length).2).2.head = _
    rw [hpop.1]
    exact ⟨by rw [List.map_cons, h2.1], h2.2.1, h2.2.2⟩

/-- The element offsets laid out by `pool_mem_init`. -/
def pool_offsets (num_elts esz : Nat) : List Nat :=
  (List.range num_elts).map fun i => POOL_HDR + i * esz

/-- The init loop builds the chain `pool_offsets` (element 0 on top). -/
theorem pool_init_fold_chain (num_elts esz : Nat) (hesz : 0 < esz) :
    PoolChain (pool_init_fold num_elts esz).mem
      (pool_init_fold num_elts esz).head (pool_offsets num_elts esz) := by
  have hinj : Function.Injective fun i => POOL_HDR + i * esz := by
    intro a b hab
    simp only at hab
    have h1 : a * esz = b * esz := by omega
    exact Nat.eq_of_mul_eq_mul_right hesz h1
  have h0 := pool_release_fold_chain
    ((List.range num_elts).reverse.map fun i => POOL_HDR + i * esz)
    { num_elts := num_elts
      elt_size := esz
      tag_next := 0
      head := LF_REF_NULL
      mem := fun _ => LF_REF_NULL }
    [] PoolChain.nil
    (by
      refine List.Nodup.map hinj ?_
      exact (List.nodup_reverse).mpr (List.nodup_range _))
    (by intro o _ ho; cases ho)
  rw [List.append_nil] at h0
  have hfold : pool_init_fold num_elts esz =
      ((List.range num_elts).reverse.map fun i => POOL_HDR + i * esz).foldl
        pool_release
        { num_elts := num_elts
          elt_size := esz
          tag_next := 0
          head := LF_REF_NULL
          mem := fun _ => LF_REF_NULL } := by
    unfold pool_init_fold
    rw [List.foldl_map]
  have hrev : ((List.range num_elts).reverse.map
      fun i => POOL_HDR + i * esz).reverse = pool_offsets num_elts esz := by
    rw [← List.map_reverse, List.reverse_reverse]
    rfl
  rw [hfold, ← hrev]
  exact h0

/-- C3: `pool_mem_init(count, elt_size)` with `elt_size > 0` succeeds and
yields a pool holding exactly `count` free elements: `count` consecutive
acquires return the `count` distinct (pairwise different, non-null)
element offsets, the next acquire returns `none`, and for any pool at
all, `pool_acquire` returns `none` only when the free-list head is the
null reference. -/
theorem pool_init_acquire (count elt_size : Nat) (q : Pool)
    (hsz : 0 < elt_size) :
    pool_mem_init count elt_size =
      some (pool_init_fold count (LF_ALIGN_UP elt_size 16)) ∧
    (pool_acquire_n (pool_init_fold count (LF_ALIGN_UP elt_size 16)) count).1 =
      (pool_offsets count (LF_ALIGN_UP elt_size 16)).map some ∧
    (pool_acquire_n (pool_init_fold count (LF_ALIGN_UP elt_size 16)) count).1.Nodup ∧
    (pool_acquire
      (pool_acquire_n (pool_init_fold count (LF_ALIGN_UP elt_size 16)) count).2).1 =
      none ∧
    ((pool_acquire q).1 = none → q.head = LF_REF_NULL) := by
  have hesz : 0 < LF_ALIGN_UP elt_size 16 := by
    unfold LF_ALIGN_UP
    have h1 : (elt_size + (16 - 1)) % 16 < 16 := Nat.mod_lt _ (by decide)
    omega
  have hchain := pool_init_fold_chain count (LF_ALIGN_UP elt_size 16) hesz
  have hlen : (pool_offsets count (LF_ALIGN_UP elt_size 16)).length = count := by
    unfold pool_offsets
    rw [List.length_map, List.length_range]
  have hmain := pool_acquire_n_chain
    (pool_offsets count (LF_ALIGN_UP elt_size 16))
    (pool_init_fold count (LF_ALIGN_UP elt_size 16)) hchain
  rw [hlen] at hmain
  refine ⟨?_, hmain.1, ?_, ?_, ?_⟩
  · unfold pool_mem_init
    rw [if_neg (by omega)]
  · rw [hmain.1]
    refine List.Nodup.map (Option.some_injective _) ?_
    unfold pool_offsets
    refine List.Nodup.map ?_ (List.nodup_range _)
    intro a b hab
    simp only at hab
    have h1 : a * LF_ALIGN_UP elt_size 16 = b * LF_ALIGN_UP elt_size 16 := by
      omega
    exact Nat.eq_of_mul_eq_mul_right hesz h1
  · unfold pool_acquire
    rw [if_pos]
    rw [hmain.2.2]
    rfl
  · intro hq
    unfold pool_acquire at hq
    by_cases hn : q.head.isNull
    · simpa [LfRef.isNull] using hn
    · rw [if_neg hn] at hq
      cases hq

/-! ### Theorems: broadcast ring (C1, C8) -/

/-- Masking with `2^k - 1` is reduction mod `2^k`. -/
theorem and_mask_mod (mask x k : Nat) (hk : mask + 1 = 2 ^ k) :
    x &&& mask = x % (mask + 1) := by
  have hpos : 0 < 2 ^ k := pow_pos (by norm_num) k
  have h2 : mask = 2 ^ k - 1 := by omega
  rw [h2, Nat.and_pow_two_sub_one_eq_mod]
  congr 1
  omega

/-- The slot holding index `t` holds tag `t - D` just before `t` is
written (its content from the previous lap, or 0 on the first lap). -/
theorem lastW_self (D t : Nat) (hD : 0 < D) (ht : 1 ≤ t) :
    lastW D t (t % D) = t - D := by
  have hdm := Nat.div_add_mod t D
  have hr : t % D < D := Nat.mod_lt t hD
  show t - 1 - (t - 1 + D - t % D) % D = t - D
  have e : t - 1 + D - t % D = D * (t / D) + (D - 1) := by omega
  rw [e, Nat.mul_add_mod, Nat.mod_eq_of_lt (by omega)]
  omega

/-- After writing index `t`, its slot's recorded tag is `t`. -/
theorem lastW_succ_self (D t : Nat) (hD : 0 < D) :
    lastW D (t + 1) (t % D) = t := by
  have hdm := Nat.div_add_mod t D
  have hr : t % D < D := Nat.mod_lt t hD
  show t + 1 - 1 - (t + 1 - 1 + D - t % D) % D = t
  rw [Nat.add_sub_cancel]
  have e : t + D - t % D = D * (t / D) + D := by omega
  rw [e]
  have e2 : (D * (t / D) + D) % D = 0 := by
    rw [Nat.mul_add_mod, Nat.mod_self]
  rw [e2]
  omega

/-- Writing index `t` leaves every other slot's tag unchanged. -/
theorem lastW_succ_other (D t j : Nat) (hD : 0 < D) (ht : 1 ≤ t)
    (hj : j < D) (hne : j ≠ t % D) :
    lastW D (t + 1) j = lastW D t j := by
  have hr : t % D < D := Nat.mod_lt t hD
  have hrne : (t + D - j) % D ≠ 0 := by
    by_cases hj0 : j = 0
    · subst hj0
      rw [Nat.sub_zero, Nat.add_mod_right]
      intro h0
      exact hne h0.symm
    · have e1 : t + D - j = t + (D - j) := by omega
      rw [e1, Nat.add_mod]
      have hDj : (D - j) % D = D - j := Nat.mod_eq_of_lt (by omega)
      rw [hDj]
      by_cases hcase : t % D + (D - j) < D
      · rw [Nat.mod_eq_of_lt hcase]
        omega
      · have h3 : (t % D + (D - j)) % D = t % D + (D - j) - D := by
          rw [Nat.mod_eq_sub_mod (by omega), Nat.mod_eq_of_lt (by omega)]
        rw [h3]
        omega
  have hq2 : (t + D - j) % D < D := Nat.mod_lt _ hD
  have hq := Nat.div_add_mod (t + D - j) D
  show t + 1 - 1 - (t + 1 - 1 + D - j) % D = t - 1 - (t - 1 + D - j) % D
  rw [Nat.add_sub_cancel]
  have e2 : t - 1 + D - j = t + D - j - 1 := by omega
  rw [e2]
  have hpred : (t + D - j - 1) % D = (t + D - j) % D - 1 := by
    have h5 : t + D - j - 1 = D * ((t + D - j) / D) + ((t + D - j) % D - 1) := by
      omega
    rw [h5, Nat.mul_add_mod, Nat.mod_eq_of_lt (by omega)]
  rw [hpred]
  omega

/-- Effect of `try_drop_head` when the CAS wins (argument equals the
current head): only `head_idx` (and the pool) change. -/
theorem try_drop_head_self (b : Broadcast) :
    (try_drop_head b b.head_idx).head_idx = b.head_idx + 1 ∧
    (try_drop_head b b.head_idx).tail_idx = b.tail_idx ∧
    (try_drop_head b b.head_idx).depth_mask = b.depth_mask ∧
    (try_drop_head b b.head_idx).slots = b.slots := by
  unfold try_drop_head
  dsimp only
  rw [if_pos rfl]
  exact ⟨rfl, rfl, rfl, rfl⟩

/-- `try_drop_head` preserves the ring invariant whenever a successful
drop implies the ring is non-empty (the condition under which
`broadcast_pub` invokes it). -/
theorem try_drop_head_pres (b : Broadcast) (h : Nat) (hinv : BInv b)
    (hlt : h = b.head_idx → b.head_idx < b.tail_idx) :
    BInv (try_drop_head b h) := by
  obtain ⟨h1, h2, h3, hex, hslots⟩ := hinv
  unfold try_drop_head
  dsimp only
  by_cases hc : b.head_idx = h
  · rw [if_pos hc]
    have hlt' := hlt hc.symm
    refine ⟨?_, ?_, ?_, hex, ?_⟩
    · show 1 ≤ h + 1
      omega
    · show h + 1 ≤ b.tail_idx
      omega
    · show b.tail_idx - (h + 1) ≤ b.depth_mask + 1
      omega
    · intro j hj
      exact hslots j hj
  · rw [if_neg hc]
    exact ⟨h1, h2, h3, hex, hslots⟩

/-- Each iteration of the publish loop preserves the ring invariant. -/
theorem pub_loop_preserves (msg_off : Nat) (fuel : Nat) :
    ∀ (b : Broadcast) (r : Broadcast × Bool), BInv b →
      pub_loop msg_off fuel b = some r → BInv r.1 := by
  induction fuel with
  | zero =>
    intro b r hinv h
    simp [pub_loop] at h
  | succ fuel ih =>
    intro b r hinv h
    obtain ⟨h1, h2, h3, ⟨k, hk⟩, hslots⟩ := hinv
    have hD : 0 < b.depth_mask + 1 := Nat.succ_pos _
    have hmask : b.tail_idx &&& b.depth_mask =
        b.tail_idx % (b.depth_mask + 1) := and_mask_mod _ _ k hk
    have hjle : b.tail_idx % (b.depth_mask + 1) ≤ b.depth_mask := by
      have := Nat.mod_lt b.tail_idx hD
      omega
    have htag : (b.slots (b.tail_idx &&& b.depth_mask)).tag =
        b.tail_idx - (b.depth_mask + 1) := by
      rw [hmask, hslots _ hjle, lastW_self _ _ hD (by omega)]
    unfold pub_loop at h
    dsimp only at h
    rw [if_neg (by rw [htag]; omega)] at h
    rw [if_neg (by rw [htag]; omega)] at h
    by_cases hfull : b.head_idx ≤ (b.slots (b.tail_idx &&& b.depth_mask)).tag
    · rw [if_pos hfull] at h
      rw [htag] at hfull
      refine ih (try_drop_head b b.head_idx) r ?_ h
      refine try_drop_head_pres b b.head_idx
        ⟨h1, h2, h3, ⟨k, hk⟩, hslots⟩ ?_
      intro _
      omega
    · rw [if_neg hfull] at h
      rw [htag] at hfull
      have hr := Option.some.inj h
      rw [← hr]
      refine ⟨?_, ?_, ?_, ⟨k, hk⟩, ?_⟩
      · show 1 ≤ b.head_idx
        exact h1
      · show b.head_idx ≤ b.tail_idx + 1
        omega
      · show b.tail_idx + 1 - b.head_idx ≤ b.depth_mask + 1
        omega
      · intro j hj
        have hj' : j ≤ b.depth_mask := hj
        show (Function.update b.slots (b.tail_idx &&& b.depth_mask)
            ⟨msg_off, b.tail_idx⟩ j).tag =
          lastW (b.depth_mask + 1) (b.tail_idx + 1) j
        by_cases hjeq : j = b.tail_idx &&& b.depth_mask
        · subst hjeq
          rw [Function.update_same, hmask, lastW_succ_self _ _ hD]
        · rw [Function.update_noteq hjeq, hslots j hj']
          have hne2 : j ≠ b.tail_idx % (b.depth_mask + 1) := by
            rw [← hmask]
            exact hjeq
          exact (lastW_succ_other _ _ _ hD (by omega) (by omega) hne2).symm

/-- `broadcast_pub` preserves the ring invariant. -/
theorem broadcast_pub_preserves (b : Broadcast) (payload : List Nat)
    (fuel : Nat) (r : Broadcast × Bool) (hinv : BInv b)
    (h : broadcast_pub b payload fuel = some r) : BInv r.1 := by
  unfold broadcast_pub at h
  rcases hpa : pool_acquire b.pool with ⟨o, p1⟩
  rw [hpa] at h
  cases o with
  | none =>
    dsimp only at h
    rw [← Option.some.inj h]
    exact hinv
  | some elt_off =>
    dsimp only at h
    refine pub_loop_preserves (b.pool_off + elt_off) fuel _ r ?_ h
    exact hinv

/-- The subscriber loop never writes the broadcast state. -/
theorem sub_next_go_state (b : Broadcast) (fuel : Nat) :
    ∀ (idx drops : Nat) (rs : Broadcast × Nat × Option (List Nat × Nat × Nat)),
      sub_next_go b fuel idx drops = some rs → rs.1 = b := by
  induction fuel with
  | zero =>
    intro idx drops rs h
    simp [sub_next_go] at h
  | succ fuel ih =>
    intro idx drops rs h
    unfold sub_next_go at h
    dsimp only at h
    repeat' split at h
    all_goals first
      | exact ih _ _ _ h
      | (rw [← Option.some.inj h])

/-- If the ring is not full, one publish-loop iteration appends the
message and returns true. -/
theorem pub_loop_write (b : Broadcast) (msg_off fuel : Nat) (hinv : BInv b)
    (hnf : ¬ b.head_idx ≤ (b.slots (b.tail_idx &&& b.depth_mask)).tag) :
    (pub_loop msg_off (fuel + 1) b).map Prod.snd = some true := by
  obtain ⟨h1, h2, h3, ⟨k, hk⟩, hslots⟩ := hinv
  have hD : 0 < b.depth_mask + 1 := Nat.succ_pos _
  have hmask : b.tail_idx &&& b.depth_mask =
      b.tail_idx % (b.depth_mask + 1) := and_mask_mod _ _ k hk
  have hjle : b.tail_idx % (b.depth_mask + 1) ≤ b.depth_mask := by
    have := Nat.mod_lt b.tail_idx hD
    omega
  have htag : (b.slots (b.tail_idx &&& b.depth_mask)).tag =
      b.tail_idx - (b.depth_mask + 1) := by
    rw [hmask, hslots _ hjle, lastW_self _ _ hD (by omega)]
  unfold pub_loop
  dsimp only
  rw [if_neg (by rw [htag]; omega)]
  rw [if_neg (by rw [htag]; omega)]
  rw [if_neg hnf]
  rfl

/-- With two loop iterations of fuel, a publish on an invariant-satisfying
ring always succeeds: either the tail slot is free, or the ring is full
and one `try_drop_head` frees it. -/
theorem pub_loop_snd (b : Broadcast) (msg_off fuel : Nat) (hinv : BInv b) :
    (pub_loop msg_off (fuel + 2) b).map Prod.snd = some true := by
  obtain ⟨h1, h2, h3, ⟨k, hk⟩, hslots⟩ := hinv
  have hD : 0 < b.depth_mask + 1 := Nat.succ_pos _
  have hmask : b.tail_idx &&& b.depth_mask =
      b.tail_idx % (b.depth_mask + 1) := and_mask_mod _ _ k hk
  have hjle : b.tail_idx % (b.depth_mask + 1) ≤ b.depth_mask := by
    have := Nat.mod_lt b.tail_idx hD
    omega
  have htag : (b.slots (b.tail_idx &&& b.depth_mask)).tag =
      b.tail_idx - (b.depth_mask + 1) := by
    rw [hmask, hslots _ hjle, lastW_self _ _ hD (by omega)]
  by_cases hfull : b.head_idx ≤ (b.slots (b.tail_idx &&& b.depth_mask)).tag
  · show (pub_loop msg_off (fuel + 1 + 1) b).map Prod.snd = some true
    unfold pub_loop
    dsimp only
    rw [if_neg (by rw [htag]; omega)]
    rw [if_neg (by rw [htag]; omega)]
    rw [if_pos hfull]
    rw [htag] at hfull
    have hbinv' : BInv (try_drop_head b b.head_idx) := by
      refine try_drop_head_pres b b.head_idx
        ⟨h1, h2, h3, ⟨k, hk⟩, hslots⟩ ?_
      intro _
      omega
    refine pub_loop_write _ msg_off fuel hbinv' ?_
    obtain ⟨e1, e2, e3, e4⟩ := try_drop_head_self b
    rw [e1, e2, e3, e4, htag]
    omega
  · exact pub_loop_write b msg_off (fuel + 1) ⟨h1, h2, h3, ⟨k, hk⟩, hslots⟩ hfull

/-- C1: the invariant `head ≤ tail ∧ tail - head ≤ D` (with the per-slot
tag bookkeeping that sustains it) holds for every buffer built by
`broadcast_mem_init` and is preserved by `broadcast_pub`,
`try_drop_head` (whose successful drop, as invoked by the publisher,
requires a non-empty ring) and `broadcast_sub_next`. -/
theorem broadcast_invariant (k m fuel idx drops h : Nat) (b bp : Broadcast)
    (payload : List Nat) (r : Broadcast × Bool)
    (rs : Broadcast × Nat × Option (List Nat × Nat × Nat)) :
    (broadcast_mem_init (2 ^ k) m = some bp → BInv bp) ∧
    (BInv b → broadcast_pub b payload fuel = some r → BInv r.1) ∧
    (BInv b → (h = b.head_idx → b.head_idx < b.tail_idx) →
      BInv (try_drop_head b h)) ∧
    (BInv b → sub_next_go b fuel idx drops = some rs → BInv rs.1) := by
  refine ⟨?_, ?_, ?_, ?_⟩
  · intro hbp
    unfold broadcast_mem_init at hbp
    have hpos : 0 < 2 ^ k := pow_pos (by norm_num) k
    have hp2 : LF_IS_POW2 (2 ^ k) = true := by
      unfold LF_IS_POW2
      simp only [Nat.and_pow_two_sub_one_eq_mod, Nat.mod_self]
      simp [hpos.ne']
    rw [if_neg (not_not_intro hp2)] at hbp
    by_cases hm : m = 0
    · rw [if_pos hm] at hbp
      cases hbp
    · rw [if_neg hm] at hbp
      dsimp only at hbp
      unfold pool_mem_init at hbp
      have hesz : ¬ LF_ALIGN_UP (8 + m) 16 = 0 := by
        unfold LF_ALIGN_UP
        have hmod : (8 + m + (16 - 1)) % 16 < 16 := Nat.mod_lt _ (by decide)
        omega
      rw [if_neg hesz, Option.map_some'] at hbp
      rw [← Option.some.inj hbp]
      refine ⟨?_, ?_, ?_, ⟨k, ?_⟩, ?_⟩
      · show (1 : Nat) ≤ 1
        exact Nat.le_refl _
      · show (1 : Nat) ≤ 1
        exact Nat.le_refl _
      · show (1 : Nat) - 1 ≤ 2 ^ k - 1 + 1
        omega
      · show 2 ^ k - 1 + 1 = 2 ^ k
        omega
      · intro j hj
        show (LF_REF_NULL).tag = lastW (2 ^ k - 1 + 1) 1 j
        simp [LF_REF_NULL, lastW]
  · intro hinv hpub
    exact broadcast_pub_preserves b payload fuel r hinv hpub
  · intro hinv hlt
    exact try_drop_head_pres b h hinv hlt
  · intro hinv hsub
    rw [sub_next_go_state b fuel idx drops rs hsub]
    exact hinv

/-- A concrete 4-slot broadcast buffer used by the witnesses. -/
def bW : Broadcast :=
  { depth_mask := 3
    max_msg_size := 8
    head_idx := 1
    tail_idx := 1
    pool_off := 128
    slots := fun _ => LF_REF_NULL
    pool := pool_init_fold 2 16
    msgs := fun _ => (0, []) }

/-- Witness for C1: the invariant survives a (no-op CAS) `try_drop_head`
and a subscriber step on the concrete buffer. -/
theorem broadcast_invariant_witness :
    BInv (try_drop_head bW 0) ∧
    BInv ((bW, 1, (none : Option (List Nat × Nat × Nat))) :
      Broadcast × Nat × Option (List Nat × Nat × Nat)).1 := by
  have hbw : BInv bW :=
    ⟨by decide, by decide, by decide, ⟨2, by decide⟩, by decide⟩
  exact ⟨(broadcast_invariant 2 8 1 1 0 0 bW bW [] (bW, false)
      (bW, 1, none)).2.2.1 hbw (fun hh => absurd hh (by decide)),
    (broadcast_invariant 2 8 1 1 0 0 bW bW [] (bW, false)
      (bW, 1, none)).2.2.2 hbw rfl⟩

/-- C8: `broadcast_pub` reports failure exactly when the pool is
exhausted, and then leaves the whole broadcast state (indices, slots,
pool and message arena) untouched, with no internal retry; with a
non-empty pool it publishes and returns true. -/
theorem broadcast_pub_failure (b : Broadcast) (payload : List Nat)
    (hinv : BInv b) :
    (b.pool.head = LF_REF_NULL → broadcast_pub b payload 2 = some (b, false)) ∧
    (b.pool.head ≠ LF_REF_NULL →
      (broadcast_pub b payload 2).map Prod.snd = some true) := by
  constructor
  · intro hnull
    unfold broadcast_pub
    have hpa : pool_acquire b.pool = (none, b.pool) := by
      unfold pool_acquire
      rw [if_pos (by simp [LfRef.isNull, hnull])]
    rw [hpa]
  · intro hnn
    unfold broadcast_pub
    have hpa : pool_acquire b.pool = (some b.pool.head.val,
        { b.pool with head := b.pool.mem b.pool.head.val }) := by
      unfold pool_acquire
      rw [if_neg (by simp [LfRef.isNull, hnn])]
    rw [hpa]
    dsimp only
    exact pub_loop_snd _ _ 0 hinv

/-- `bW` with its pool drained, used by the C8 witness. -/
def bwEmpty : Broadcast :=
  { bW with
    pool :=
      { num_elts := 0
        elt_size := 16
        tag_next := 0
        head := LF_REF_NULL
        mem := fun _ => LF_REF_NULL } }

/-- Witness for C8: on an exhausted pool the publish fails and returns
the state unchanged. -/
theorem broadcast_pub_failure_witness :
    broadcast_pub bwEmpty [] 2 = some (bwEmpty, false) := by
  have hbw : BInv bwEmpty :=
    ⟨by decide, by decide, by decide, ⟨2, by decide⟩, by decide⟩
  exact (broadcast_pub_failure bwEmpty [] hbw).1 rfl

/-- A pool with an empty free list, used by the witnesses. -/
def poolEmpty : Pool :=
  { num_elts := 0
    elt_size := 16
    tag_next := 0
    head := LF_REF_NULL
    mem := fun _ => LF_REF_NULL }

/-- Witness for C3 with `count = 2`, `elt_size = 8`: the two acquires
return offsets 64 and 80, and the third acquire fails. -/
theorem pool_init_acquire_witness :
    (pool_acquire_n (pool_init_fold 2 (LF_ALIGN_UP 8 16)) 2).1 =
      (pool_offsets 2 (LF_ALIGN_UP 8 16)).map some ∧
    (pool_acquire
      (pool_acquire_n (pool_init_fold 2 (LF_ALIGN_UP 8 16)) 2).2).1 = none :=
  ⟨(pool_init_acquire 2 8 poolEmpty (by decide)).2.1,
   (pool_init_acquire 2 8 poolEmpty (by decide)).2.2.2.1⟩

/-! ### Theorems: seqlock (C7) -/

/-- Specification of the chunked copy loop: it copies the largest
multiple of `c` that fits in `sz`, advancing both cursors. -/
theorem copy_words_spec (src : Nat → Nat) (c : Nat) (hc : 0 < c) :
    ∀ (sz : Nat) (dst : Nat → Nat) (d s : Nat),
      copy_words dst src d s sz c =
        (fun x => if d ≤ x ∧ x < d + (sz - sz % c) then src (s + (x - d))
          else dst x,
         d + (sz - sz % c), s + (sz - sz % c), sz % c) := by
  intro sz
  induction sz using Nat.strong_induction_on with
  | _ sz ih =>
    intro dst d s
    rw [copy_words]
    split
    · rename_i h
      rw [ih (sz - c) (by omega) (copy_chunk dst src d s c) (d + c) (s + c)]
      have hmod : (sz - c) % c = sz % c := by
        conv_rhs => rw [show sz = c + (sz - c) by omega]
        rw [Nat.add_mod_left]
      have hdm := Nat.div_add_mod sz c
      have hmodlt : sz % c < c := Nat.mod_lt _ hc
      have hq1 : 1 ≤ sz / c := (Nat.one_le_div_iff hc).mpr h.2
      have hcc : c ≤ c * (sz / c) := by
        calc c = c * 1 := (Nat.mul_one c).symm
        _ ≤ c * (sz / c) := Nat.mul_le_mul_left c hq1
      simp only [Prod.mk.injEq]
      refine ⟨?_, ?_, ?_, ?_⟩
      · funext y
        try try simp only [copy_chunk]
        split_ifs <;> first | rfl | omega | (congr 1; omega)
      · omega
      · omega
      · exact hmod
    · rename_i h
      have hlt : sz < c := by omega
      have hmod : sz % c = sz := Nat.mod_eq_of_lt hlt
      simp only [Prod.mk.injEq]
      refine ⟨?_, ?_, ?_, ?_⟩
      · funext y
        rw [if_neg (by omega)]
      · omega
      · omega
      · omega

/-- Pointwise behavior of `atomic_memcpy`: the first `sz` bytes of `dst`
at `d` become the bytes of `src` at `s`; everything else is untouched. -/
theorem atomic_memcpy_apply (dst src : Nat → Nat) (d s sz x : Nat) :
    atomic_memcpy dst src d s sz x =
      if d ≤ x ∧ x < d + sz then src (s + (x - d)) else dst x := by
  unfold atomic_memcpy
  rw [copy_words_spec src 8 (by decide) sz dst d s]
  dsimp only
  have h8 : sz % 8 < 8 := Nat.mod_lt _ (by decide)
  have h8le : sz % 8 ≤ sz := Nat.mod_le _ _
  by_cases h4 : 4 ≤ sz % 8
  · rw [if_pos h4]
    dsimp only
    by_cases h2 : 2 ≤ sz % 8 - 4
    · rw [if_pos h2]
      dsimp only
      by_cases h1 : 1 ≤ sz % 8 - 4 - 2
      · rw [if_pos h1]
        try try simp only [copy_chunk]
        split_ifs <;> first | rfl | omega | (congr 1; omega)
      · rw [if_neg h1]
        try try simp only [copy_chunk]
        split_ifs <;> first | rfl | omega | (congr 1; omega)
    · rw [if_neg h2]
      dsimp only
      by_cases h1 : 1 ≤ sz % 8 - 4
      · rw [if_pos h1]
        try try simp only [copy_chunk]
        split_ifs <;> first | rfl | omega | (congr 1; omega)
      · rw [if_neg h1]
        try try simp only [copy_chunk]
        split_ifs <;> first | rfl | omega | (congr 1; omega)
  · rw [if_neg h4]
    dsimp only
    by_cases h2 : 2 ≤ sz % 8
    · rw [if_pos h2]
      dsimp only
      by_cases h1 : 1 ≤ sz % 8 - 2
      · rw [if_pos h1]
        try try simp only [copy_chunk]
        split_ifs <;> first | rfl | omega | (congr 1; omega)
      · rw [if_neg h1]
        try try simp only [copy_chunk]
        split_ifs <;> first | rfl | omega | (congr 1; omega)
    · rw [if_neg h2]
      dsimp only
      by_cases h1 : 1 ≤ sz % 8
      · rw [if_pos h1]
        try try simp only [copy_chunk]
        split_ifs <;> first | rfl | omega | (congr 1; omega)
      · rw [if_neg h1]
        try try simp only [copy_chunk]
        split_ifs <;> first | rfl | omega | (congr 1; omega)

/-- C7: with no concurrent writer (an even sequence word), a write of a
`len`-byte payload followed by a read terminates on the first pass and
the read copies exactly the payload bytes into `dst`: positions below
`len` hold the written bytes, positions at and beyond `len` are the old
`dst` bytes. -/
theorem seqlock_read_after_write (sync len x : Nat)
    (src data dst : Nat → Nat) (heven : sync &&& SEQLOCK_WRITER = 0) :
    seqlock_write sync src data len =
      some (sync + 2, atomic_memcpy data src 0 0 len) ∧
    seqlock_read (sync + 2) (atomic_memcpy data src 0 0 len) dst len =
      some (atomic_memcpy dst (atomic_memcpy data src 0 0 len) 0 0 len) ∧
    (x < len →
      atomic_memcpy dst (atomic_memcpy data src 0 0 len) 0 0 len x = src x) ∧
    (len ≤ x →
      atomic_memcpy dst (atomic_memcpy data src 0 0 len) 0 0 len x = dst x) := by
  have hparity : (sync + 2) &&& SEQLOCK_WRITER = 0 := by
    show (sync + 2) &&& 1 = 0
    rw [Nat.and_one_is_mod, Nat.add_mod_right]
    have h1 : sync &&& 1 = sync % 2 := Nat.and_one_is_mod sync
    rw [← h1]
    exact heven
  refine ⟨?_, ?_, ?_, ?_⟩
  · unfold seqlock_write
    rw [if_neg (not_not_intro heven)]
    rfl
  · unfold seqlock_read
    rw [if_neg (not_not_intro hparity)]
    dsimp only
    rw [if_pos rfl]
  · intro hx
    rw [atomic_memcpy_apply, if_pos ⟨Nat.zero_le _, by omega⟩]
    rw [show 0 + (x - 0) = x by omega]
    rw [atomic_memcpy_apply, if_pos ⟨Nat.zero_le _, by omega⟩]
    rw [show 0 + (x - 0) = x by omega]
  · intro hx
    rw [atomic_memcpy_apply, if_neg (by omega)]

/-- A concrete source buffer for the C7 witness. -/
def byteSrc : Nat → Nat := fun n => n + 10

/-- A concrete zeroed buffer for the C7 witness. -/
def byteZero : Nat → Nat := fun _ => 0

/-- Witness for C7 with a 3-byte payload at byte 1. -/
theorem seqlock_read_after_write_witness :
    seqlock_write 0 byteSrc byteZero 3 =
      some (0 + 2, atomic_memcpy byteZero byteSrc 0 0 3) ∧
    atomic_memcpy byteZero (atomic_memcpy byteZero byteSrc 0 0 3) 0 0 3 1 =
      byteSrc 1 :=
  ⟨(seqlock_read_after_write 0 3 1 byteSrc byteZero byteZero (by decide)).1,
   (seqlock_read_after_write 0 3 1 byteSrc byteZero byteZero
     (by decide)).2.2.1 (by decide)⟩

end Spec2Proof
